import Mathlib

/-!
# Verification of xk6-celery against its specification

Shallow embedding of the xk6-celery Go sources (`celery.go`, `redis.go`,
`celery-redis.go`).  Go strings and byte slices are modelled as `List Nat`
(each element a byte value `< 256`); Go `interface{}` argument values are
modelled by `GoVal`; JSON documents by the `Json` inductive; machine
integers by `Nat`/`Int`.  Standard-library behaviour (`encoding/json`,
`encoding/base64`, `net/url`, gocelery's backend) is modelled at its
interface, faithful to what the code relies on.
-/

namespace XK6Celery

/-- Go strings and `[]byte` values are byte sequences; we model both as
lists of byte values. -/
abbrev GoStr := List Nat

/-- UTF-8 encoding of a Lean string into Go bytes (for concrete literals). -/
def strBytes (s : String) : GoStr :=
  s.data.flatMap (fun c =>
    let n := c.toNat
    if n < 0x80 then [n]
    else if n < 0x800 then [0xC0 + n / 0x40, 0x80 + n % 0x40]
    else if n < 0x10000 then
      [0xE0 + n / 0x1000, 0x80 + (n / 0x40) % 0x40, 0x80 + n % 0x40]
    else
      [0xF0 + n / 0x40000, 0x80 + (n / 0x1000) % 0x40,
       0x80 + (n / 0x40) % 0x40, 0x80 + n % 0x40])

/-- All bytes of a byte sequence are genuine byte values. -/
def ByteWF (bs : GoStr) : Prop := ∀ b ∈ bs, b < 256

instance : DecidablePred ByteWF := fun bs =>
  inferInstanceAs (Decidable (∀ b ∈ bs, b < 256))

/-! ## base64 (model of Go `encoding/base64` StdEncoding) -/

/-- The standard base64 alphabet, as byte codes: index `k < 64` to the byte
of the character encoding the 6-bit value `k`. -/
def b64char (k : Nat) : Nat :=
  if k < 26 then 65 + k          -- A-Z
  else if k < 52 then 71 + k     -- a-z
  else if k < 62 then k - 4      -- 0-9
  else if k = 62 then 43         -- +
  else 47                        -- /

/-- Inverse of the base64 alphabet: byte code to 6-bit value. -/
def b64val (c : Nat) : Option Nat :=
  if 65 ≤ c ∧ c ≤ 90 then some (c - 65)
  else if 97 ≤ c ∧ c ≤ 122 then some (c - 71)
  else if 48 ≤ c ∧ c ≤ 57 then some (c + 4)
  else if c = 43 then some 62
  else if c = 47 then some 63
  else none

/-- `base64.StdEncoding.EncodeToString`: 3 input bytes become 4 alphabet
bytes, with `=` (byte 61) padding for a final 1- or 2-byte group. -/
def base64Encode : List Nat → List Nat
  | [] => []
  | [a] => [b64char (a / 4), b64char (a % 4 * 16), 61, 61]
  | [a, b] => [b64char (a / 4), b64char (a % 4 * 16 + b / 16),
               b64char (b % 16 * 4), 61]
  | a :: b :: c :: rest =>
      b64char (a / 4) :: b64char (a % 4 * 16 + b / 16) ::
      b64char (b % 16 * 4 + c / 64) :: b64char (c % 64) :: base64Encode rest

/-- base64 decoding (inverts `base64Encode`; strict on padding). -/
def base64Decode : List Nat → Option (List Nat)
  | [] => some []
  | c1 :: c2 :: c3 :: c4 :: rest => do
      let v1 ← b64val c1
      let v2 ← b64val c2
      if c3 = 61 then
        if c4 = 61 ∧ rest = [] ∧ v2 % 16 = 0 then
          some [v1 * 4 + v2 / 16]
        else none
      else do
        let v3 ← b64val c3
        if c4 = 61 then
          if rest = [] ∧ v3 % 4 = 0 then
            some [v1 * 4 + v2 / 16, v2 % 16 * 16 + v3 / 4]
          else none
        else do
          let v4 ← b64val c4
          let tail ← base64Decode rest
          some ((v1 * 4 + v2 / 16) :: (v2 % 16 * 16 + v3 / 4) ::
                (v3 % 4 * 64 + v4) :: tail)
  | _ => none

theorem b64val_b64char (k : Nat) (hk : k < 64) : b64val (b64char k) = some k := by
  revert hk; revert k; decide

theorem b64char_ne_61 (k : Nat) (hk : k < 64) : b64char k ≠ 61 := by
  revert hk; revert k; decide

theorem base64_roundtrip : ∀ (bs : List Nat), ByteWF bs →
    base64Decode (base64Encode bs) = some bs := by
  intro bs
  induction bs using base64Encode.induct with
  | case1 => intro _; rfl
  | case2 a =>
      intro h
      have ha : a < 256 := h a (by simp)
      have h1 : a / 4 < 64 := by omega
      have h2 : a % 4 * 16 < 64 := by omega
      simp only [base64Encode, base64Decode, b64val_b64char _ h1,
        b64val_b64char _ h2, Option.bind_eq_bind, Option.some_bind]
      have : a % 4 * 16 % 16 = 0 := by omega
      simp only [if_pos rfl, this, and_self, and_true, if_pos trivial,
        Option.some.injEq, List.cons.injEq]
      omega
  | case3 a b =>
      intro h
      have ha : a < 256 := h a (by simp)
      have hb : b < 256 := h b (by simp)
      have h1 : a / 4 < 64 := by omega
      have h2 : a % 4 * 16 + b / 16 < 64 := by omega
      have h3 : b % 16 * 4 < 64 := by omega
      simp only [base64Encode, base64Decode, b64val_b64char _ h1,
        b64val_b64char _ h2, Option.bind_eq_bind, Option.some_bind]
      rw [if_neg (b64char_ne_61 _ h3)]
      simp only [b64val_b64char _ h3, Option.some_bind]
      have : b % 16 * 4 % 4 = 0 := by omega
      simp only [if_pos rfl, this, and_self, and_true, if_pos trivial,
        Option.some.injEq, List.cons.injEq]
      omega
  | case4 a b c rest ih =>
      intro h
      have ha : a < 256 := h a (by simp)
      have hb : b < 256 := h b (by simp)
      have hc : c < 256 := h c (by simp)
      have hrest : ByteWF rest := fun x hx => h x (by simp [hx])
      have h1 : a / 4 < 64 := by omega
      have h2 : a % 4 * 16 + b / 16 < 64 := by omega
      have h3 : b % 16 * 4 + c / 64 < 64 := by omega
      have h4 : c % 64 < 64 := by omega
      simp only [base64Encode, base64Decode, b64val_b64char _ h1,
        b64val_b64char _ h2, Option.bind_eq_bind, Option.some_bind]
      rw [if_neg (b64char_ne_61 _ h3)]
      simp only [b64val_b64char _ h3, Option.some_bind]
      rw [if_neg (b64char_ne_61 _ h4)]
      simp only [b64val_b64char _ h4, Option.some_bind, ih hrest,
        Option.some_bind, Option.some.injEq, List.cons.injEq, and_true]
      omega

/-! ## JSON documents (model of Go `encoding/json` values and texts)

JSON values are modelled by `Json`; serialisation (`renderJson`) follows
`json.Marshal`'s output format (objects keep the field order in which the
Go code supplies them, strings escape `"` and `\`), and `parseJson` is the
inverse text parser. -/

inductive Json where
  | null
  | bool (b : Bool)
  | num (n : Int)
  | str (s : GoStr)
  | arr (elems : List Json)
  | obj (members : List (GoStr × Json))
deriving Repr

/-- Decimal digits of `n`, most significant first, as byte codes. -/
def natDigits (n : Nat) : List Nat :=
  if _h : n < 10 then [48 + n] else natDigits (n / 10) ++ [48 + n % 10]
decreasing_by exact Nat.div_lt_self (by omega) (by omega)

/-- Rendering of a Go `int` in decimal. -/
def renderInt (n : Int) : List Nat :=
  if n < 0 then 45 :: natDigits n.natAbs else natDigits n.toNat

/-- JSON string escaping of one byte (model of `json.Marshal`'s escaping
of `"` and `\`). -/
def escapeByte (b : Nat) : List Nat :=
  if b = 34 ∨ b = 92 then [92, b] else [b]

def escapeStr (s : GoStr) : List Nat := s.flatMap escapeByte

mutual

/-- JSON text of a value (model of `json.Marshal`). -/
def renderJson : Json → List Nat
  | .null => [110, 117, 108, 108]
  | .bool true => [116, 114, 117, 101]
  | .bool false => [102, 97, 108, 115, 101]
  | .num n => renderInt n
  | .str s => 34 :: (escapeStr s ++ [34])
  | .arr l => 91 :: (renderElems l ++ [93])
  | .obj m => 123 :: (renderMembers m ++ [125])

def renderElems : List Json → List Nat
  | [] => []
  | [j] => renderJson j
  | j :: rest => renderJson j ++ 44 :: renderElems rest

def renderMembers : List (GoStr × Json) → List Nat
  | [] => []
  | [(k, v)] => 34 :: (escapeStr k ++ [34, 58]) ++ renderJson v
  | (k, v) :: rest =>
      (34 :: (escapeStr k ++ [34, 58]) ++ renderJson v) ++ 44 :: renderMembers rest

end

def isDigit (b : Nat) : Bool := decide (48 ≤ b ∧ b ≤ 57)

/-- Greedily consume decimal digits, accumulating their value. -/
def parseDigits : List Nat → Nat → Nat × List Nat
  | [], acc => (acc, [])
  | b :: bs, acc =>
      if isDigit b then parseDigits bs (acc * 10 + (b - 48)) else (acc, b :: bs)

mutual

/-- Parse the body of a JSON string (after the opening quote), undoing
`escapeStr`, up to the closing quote. -/
def parseStrBody : List Nat → Option (GoStr × List Nat)
  | [] => none
  | b :: bs =>
    if b = 34 then some ([], bs)
    else if b = 92 then parseStrEsc bs
    else
      match parseStrBody bs with
      | some (s, r) => some (b :: s, r)
      | none => none

/-- Continue a string body right after a backslash. -/
def parseStrEsc : List Nat → Option (GoStr × List Nat)
  | [] => none
  | c :: cs =>
    if c = 34 ∨ c = 92 then
      match parseStrBody cs with
      | some (s, r) => some (c :: s, r)
      | none => none
    else none

end

/-- Recognise the tail of the literal `null`. -/
def expectNull : List Nat → Option (Json × List Nat)
  | 117 :: 108 :: 108 :: rest => some (.null, rest)
  | _ => none

/-- Recognise the tail of the literal `true`. -/
def expectTrue : List Nat → Option (Json × List Nat)
  | 114 :: 117 :: 101 :: rest => some (.bool true, rest)
  | _ => none

/-- Recognise the tail of the literal `false`. -/
def expectFalse : List Nat → Option (Json × List Nat)
  | 97 :: 108 :: 115 :: 101 :: rest => some (.bool false, rest)
  | _ => none

/-- Parse the digits of a negative number, after the minus sign. -/
def parseNegNum : List Nat → Option (Json × List Nat)
  | [] => none
  | c :: cs =>
    if isDigit c then
      let p := parseDigits cs (c - 48)
      some (.num (-(p.1 : Int)), p.2)
    else none

mutual

/-- Fuelled JSON value parser (inverse of `renderJson`). -/
def parseVal : Nat → List Nat → Option (Json × List Nat)
  | 0, _ => none
  | _ + 1, [] => none
  | fuel + 1, b :: bs =>
    if b = 110 then expectNull bs
    else if b = 116 then expectTrue bs
    else if b = 102 then expectFalse bs
    else if b = 34 then
      match parseStrBody bs with
      | some (s, r) => some (.str s, r)
      | none => none
    else if b = 45 then parseNegNum bs
    else if b = 91 then
      match parseElems fuel bs with
      | some (l, r) => some (.arr l, r)
      | none => none
    else if b = 123 then
      match parseMembers fuel bs with
      | some (m, r) => some (.obj m, r)
      | none => none
    else if isDigit b then
      let p := parseDigits bs (b - 48)
      some (.num (p.1 : Int), p.2)
    else none

/-- Parse array elements after the opening `[`, up to the closing `]`. -/
def parseElems : Nat → List Nat → Option (List Json × List Nat)
  | 0, _ => none
  | fuel + 1, input =>
    if input.head? = some 93 then some ([], input.tail)
    else
      match parseVal fuel input with
      | none => none
      | some (j, r) =>
        match r with
        | 44 :: r2 =>
          match parseElems fuel r2 with
          | some (js, r3) => some (j :: js, r3)
          | none => none
        | 93 :: r2 => some ([j], r2)
        | _ => none

/-- Parse object members after the opening `{`, up to the closing `}`. -/
def parseMembers : Nat → List Nat → Option (List (GoStr × Json) × List Nat)
  | 0, _ => none
  | fuel + 1, input =>
    if input.head? = some 125 then some ([], input.tail)
    else
      match input with
      | 34 :: bs =>
        match parseStrBody bs with
        | none => none
        | some (k, r) =>
          match r with
          | 58 :: r2 =>
            match parseVal fuel r2 with
            | none => none
            | some (v, r3) =>
              match r3 with
              | 44 :: r4 =>
                match parseMembers fuel r4 with
                | some (ms, r5) => some ((k, v) :: ms, r5)
                | none => none
              | 125 :: r4 => some ([(k, v)], r4)
              | _ => none
          | _ => none
      | _ => none

end

/-- Parse a complete JSON text (model of `json.Unmarshal`'s scanner). -/
def parseJson (input : List Nat) : Option Json :=
  match parseVal (input.length + 1) input with
  | some (j, []) => some j
  | _ => none

mutual

/-- Fuel measure of a JSON value for the parser roundtrip. -/
def jsizeV : Json → Nat
  | .null => 1
  | .bool _ => 1
  | .num _ => 1
  | .str _ => 1
  | .arr l => jsizeL l + 2
  | .obj m => jsizeM m + 2

def jsizeL : List Json → Nat
  | [] => 0
  | j :: rest => jsizeV j + jsizeL rest

def jsizeM : List (GoStr × Json) → Nat
  | [] => 0
  | (_, v) :: rest => jsizeV v + jsizeM rest

end

theorem jsizeV_pos (j : Json) : 1 ≤ jsizeV j := by
  cases j <;> simp [jsizeV]

def startsWithDigit : List Nat → Bool
  | [] => false
  | b :: _ => isDigit b

theorem parseDigits_notDigit (acc : Nat) (rest : List Nat)
    (h : startsWithDigit rest = false) : parseDigits rest acc = (acc, rest) := by
  cases rest with
  | nil => rfl
  | cons b bs =>
      simp only [startsWithDigit] at h
      simp [parseDigits, h]

/-- Value of a digit string, accumulated left to right. -/
def digitsFold : List Nat → Nat → Nat
  | [], a => a
  | d :: ds, a => digitsFold ds (a * 10 + (d - 48))

theorem parseDigits_append (ds : List Nat) :
    ∀ (acc : Nat) (rest : List Nat), (∀ d ∈ ds, isDigit d = true) →
    startsWithDigit rest = false →
    parseDigits (ds ++ rest) acc = (digitsFold ds acc, rest) := by
  induction ds with
  | nil =>
      intro acc rest _ hrest
      simpa [digitsFold] using parseDigits_notDigit acc rest hrest
  | cons d ds ih =>
      intro acc rest hds hrest
      have hd : isDigit d = true := hds d (by simp)
      simp only [List.cons_append, parseDigits, hd, if_true, digitsFold]
      exact ih _ rest (fun x hx => hds x (by simp [hx])) hrest

theorem natDigits_digits (n : Nat) : ∀ d ∈ natDigits n, isDigit d = true := by
  induction n using Nat.strong_induction_on with
  | _ n ih =>
      rw [natDigits]
      split
      · intro d hd
        simp only [List.mem_singleton] at hd
        subst hd
        simp only [isDigit, decide_eq_true_eq]
        omega
      · intro d hd
        rw [List.mem_append] at hd
        rcases hd with hd | hd
        · exact ih (n / 10) (Nat.div_lt_self (by omega) (by omega)) d hd
        · simp only [List.mem_singleton] at hd
          subst hd
          simp only [isDigit, decide_eq_true_eq]
          omega

theorem natDigits_cons (n : Nat) :
    ∃ d ds, natDigits n = d :: ds ∧ isDigit d = true := by
  have hmem := natDigits_digits n
  have hne : natDigits n ≠ [] := by
    rw [natDigits]
    split
    · simp
    · simp
  cases h : natDigits n with
  | nil => exact absurd h hne
  | cons d ds =>
      exact ⟨d, ds, rfl, hmem d (by rw [h]; simp)⟩

theorem digitsFold_append (xs : List Nat) :
    ∀ (ys : List Nat) (a : Nat),
    digitsFold (xs ++ ys) a = digitsFold ys (digitsFold xs a) := by
  induction xs with
  | nil => intro ys a; rfl
  | cons x xs ihx => intro ys a; simp [digitsFold, ihx]

theorem digitsFold_natDigits (n : Nat) :
    ∀ a : Nat, digitsFold (natDigits n) a = a * 10 ^ (natDigits n).length + n := by
  induction n using Nat.strong_induction_on with
  | _ n ih =>
      intro a
      rw [natDigits]
      split
      · simp [digitsFold]
      · have hrec := ih (n / 10) (Nat.div_lt_self (by omega) (by omega))
        rw [digitsFold_append, hrec, List.length_append, List.length_singleton]
        simp only [digitsFold]
        have h48 : 48 + n % 10 - 48 = n % 10 := by omega
        rw [h48, pow_succ, ← mul_assoc, Nat.add_mul]
        generalize a * 10 ^ (natDigits (n / 10)).length * 10 = y
        omega

theorem parseStrBody_escape (s : GoStr) :
    ∀ rest : List Nat, parseStrBody (escapeStr s ++ 34 :: rest) = some (s, rest) := by
  induction s with
  | nil => intro rest; simp [escapeStr, parseStrBody]
  | cons b bs ih =>
      intro rest
      simp only [escapeStr, List.flatMap_cons, escapeByte]
      rw [← escapeStr]
      by_cases hb : b = 34 ∨ b = 92
      · rw [if_pos hb]
        have h92 : ¬ ((92 : Nat) = 34) := by decide
        simp only [List.append_eq, List.append_assoc, List.cons_append,
          List.nil_append, parseStrBody, if_neg h92, if_pos rfl, if_true,
          parseStrEsc, if_pos hb, ih rest]
      · rw [if_neg hb]
        push_neg at hb
        simp only [List.append_eq, List.append_assoc, List.cons_append,
          List.nil_append, parseStrBody, if_neg hb.1, if_neg hb.2, ih rest]

theorem startsWithDigit_cons (b : Nat) (bs : List Nat) :
    startsWithDigit (b :: bs) = isDigit b := rfl

theorem parseVal_renderInt (n : Int) (f : Nat) (rest : List Nat)
    (hrest : startsWithDigit rest = false) :
    parseVal (f + 1) (renderInt n ++ rest) = some (.num n, rest) := by
  by_cases hn : n < 0
  · rw [renderInt, if_pos hn]
    obtain ⟨d, ds, hds, hd⟩ := natDigits_cons n.natAbs
    have hdigs : ∀ x ∈ ds, isDigit x = true := fun x hx =>
      natDigits_digits n.natAbs x (by rw [hds]; exact List.mem_cons_of_mem _ hx)
    have hfold : digitsFold ds (d - 48) = n.natAbs := by
      have h0 := digitsFold_natDigits n.natAbs 0
      rw [hds] at h0
      simpa [digitsFold] using h0
    have hneg : -((n.natAbs : Nat) : Int) = n := by omega
    rw [hds]
    simp only [List.cons_append, parseVal]
    norm_num [parseNegNum, hd, parseDigits_append ds (d - 48) rest hdigs hrest,
      hfold, hneg]
    rw [abs_of_neg hn, neg_neg]
  · rw [renderInt, if_neg hn]
    obtain ⟨d, ds, hds, hd⟩ := natDigits_cons n.toNat
    have hdigs : ∀ x ∈ ds, isDigit x = true := fun x hx =>
      natDigits_digits n.toNat x (by rw [hds]; exact List.mem_cons_of_mem _ hx)
    have hfold : digitsFold ds (d - 48) = n.toNat := by
      have h0 := digitsFold_natDigits n.toNat 0
      rw [hds] at h0
      simpa [digitsFold] using h0
    have htn : ((n.toNat : Nat) : Int) = n := by omega
    have hd' : 48 ≤ d ∧ d ≤ 57 := by simpa [isDigit] using hd
    have hne : d ≠ 110 ∧ d ≠ 116 ∧ d ≠ 102 ∧ d ≠ 34 ∧ d ≠ 45 ∧ d ≠ 91 ∧ d ≠ 123 := by
      omega
    rw [hds]
    simp only [List.cons_append, parseVal]
    simp only [hne.1, hne.2.1, hne.2.2.1, hne.2.2.2.1, hne.2.2.2.2.1,
      hne.2.2.2.2.2.1, hne.2.2.2.2.2.2, if_false, hd, if_true,
      parseDigits_append ds (d - 48) rest hdigs hrest, hfold, htn]

theorem parseVal_renderStr (s : GoStr) (f : Nat) (rest : List Nat) :
    parseVal (f + 1) (renderJson (.str s) ++ rest) = some (.str s, rest) := by
  simp only [renderJson, List.cons_append, List.append_assoc, List.cons_append,
    List.nil_append, parseVal]
  norm_num [parseStrBody_escape s rest]

/-- Every rendered JSON value starts with a byte other than `]`. -/
theorem renderJson_head (j : Json) :
    ∃ b t, renderJson j = b :: t ∧ b ≠ 93 := by
  cases j with
  | null => exact ⟨110, _, rfl, by omega⟩
  | bool b =>
      cases b with
      | false => exact ⟨102, _, rfl, by omega⟩
      | true => exact ⟨116, _, rfl, by omega⟩
  | num n =>
      rw [renderJson]
      by_cases hn : n < 0
      · rw [renderInt, if_pos hn]
        exact ⟨45, _, rfl, by omega⟩
      · rw [renderInt, if_neg hn]
        obtain ⟨d, ds, hds, hd⟩ := natDigits_cons n.toNat
        have hd' : 48 ≤ d ∧ d ≤ 57 := by simpa [isDigit] using hd
        exact ⟨d, ds, hds, by omega⟩
  | str s => exact ⟨34, _, rfl, by omega⟩
  | arr l => exact ⟨91, _, rfl, by omega⟩
  | obj m => exact ⟨123, _, rfl, by omega⟩

mutual

theorem parseVal_render (j : Json) (fuel : Nat) (rest : List Nat)
    (hf : jsizeV j ≤ fuel) (hrest : startsWithDigit rest = false) :
    parseVal fuel (renderJson j ++ rest) = some (j, rest) := by
  obtain ⟨f, rfl⟩ : ∃ f, fuel = f + 1 := ⟨fuel - 1, by have := jsizeV_pos j; omega⟩
  cases j with
  | null => simp [renderJson, parseVal, expectNull]
  | bool b => cases b <;> simp [renderJson, parseVal, expectTrue, expectFalse]
  | num n => exact parseVal_renderInt n f rest hrest
  | str s => exact parseVal_renderStr s f rest
  | arr l =>
      have hl : jsizeL l < f := by simp only [jsizeV] at hf; omega
      have h93 : ([93] : List Nat) ++ rest = 93 :: rest := rfl
      simp only [renderJson, List.cons_append, List.append_assoc, h93, parseVal]
      norm_num
      rw [parseElems_render l f rest hl]
  | obj m =>
      have hm : jsizeM m < f := by simp only [jsizeV] at hf; omega
      have h125 : ([125] : List Nat) ++ rest = 125 :: rest := rfl
      simp only [renderJson, List.cons_append, List.append_assoc, h125, parseVal]
      norm_num
      rw [parseMembers_render m f rest hm]

theorem parseElems_render (l : List Json) (fuel : Nat) (rest : List Nat)
    (hf : jsizeL l < fuel) :
    parseElems fuel (renderElems l ++ 93 :: rest) = some (l, rest) := by
  obtain ⟨g, rfl⟩ : ∃ g, fuel = g + 1 := ⟨fuel - 1, by omega⟩
  cases l with
  | nil => simp [renderElems, parseElems]
  | cons e es =>
      obtain ⟨b, t, hbt, hb⟩ := renderJson_head e
      cases es with
      | nil =>
          have he : jsizeV e ≤ g := by simp only [jsizeL] at hf; omega
          simp only [renderElems, parseElems]
          have hcond : ¬ ((renderJson e ++ 93 :: rest).head? = some 93) := by
            rw [hbt]; simp [hb]
          rw [if_neg hcond,
            parseVal_render e g (93 :: rest) he
              (by rw [startsWithDigit_cons]; decide)]
      | cons e2 es2 =>
          have he : jsizeV e ≤ g := by
            simp only [jsizeL] at hf
            have := jsizeV_pos e2
            omega
          have hes : jsizeL (e2 :: es2) < g := by
            have := jsizeV_pos e
            simp only [jsizeL] at hf ⊢
            omega
          simp only [renderElems, parseElems, List.append_assoc, List.cons_append]
          have hcond : ¬ ((renderJson e ++
              44 :: (renderElems (e2 :: es2) ++ 93 :: rest)).head? = some 93) := by
            rw [hbt]; simp [hb]
          rw [if_neg hcond,
            parseVal_render e g (44 :: (renderElems (e2 :: es2) ++ 93 :: rest)) he
              (by rw [startsWithDigit_cons]; decide)]
          simp [parseElems_render (e2 :: es2) g rest hes]

theorem parseMembers_render (m : List (GoStr × Json)) (fuel : Nat) (rest : List Nat)
    (hf : jsizeM m < fuel) :
    parseMembers fuel (renderMembers m ++ 125 :: rest) = some (m, rest) := by
  obtain ⟨g, rfl⟩ : ∃ g, fuel = g + 1 := ⟨fuel - 1, by omega⟩
  cases m with
  | nil => simp [renderMembers, parseMembers]
  | cons kv ms =>
      obtain ⟨k, v⟩ := kv
      cases ms with
      | nil =>
          have hv : jsizeV v ≤ g := by simp only [jsizeM] at hf; omega
          simp only [renderMembers, parseMembers, List.append_assoc,
            List.cons_append, List.nil_append]
          norm_num
          rw [parseStrBody_escape k (58 :: (renderJson v ++ 125 :: rest))]
          simp [parseVal_render v g (125 :: rest) hv
              (by rw [startsWithDigit_cons]; decide)]
      | cons kv2 ms2 =>
          have hv : jsizeV v ≤ g := by
            simp only [jsizeM] at hf
            have := jsizeV_pos kv2.2
            omega
          have hms : jsizeM (kv2 :: ms2) < g := by
            have := jsizeV_pos v
            simp only [jsizeM] at hf ⊢
            omega
          simp only [renderMembers, parseMembers, List.append_assoc,
            List.cons_append, List.nil_append]
          norm_num
          rw [parseStrBody_escape k
              (58 :: (renderJson v ++ 44 :: (renderMembers (kv2 :: ms2) ++ 125 :: rest)))]
          simp [parseVal_render v g
              (44 :: (renderMembers (kv2 :: ms2) ++ 125 :: rest)) hv
              (by rw [startsWithDigit_cons]; decide),
            parseMembers_render (kv2 :: ms2) g rest hms]

end

mutual

theorem jsizeV_le_render (j : Json) : jsizeV j ≤ (renderJson j).length + 1 := by
  cases j with
  | null => simp [jsizeV, renderJson]
  | bool b => cases b <;> simp [jsizeV, renderJson]
  | num n => simp [jsizeV]
  | str s => simp [jsizeV, renderJson]
  | arr l =>
      have := jsizeL_le_render l
      simp only [jsizeV, renderJson, List.length_cons, List.length_append,
        List.length_singleton]
      omega
  | obj m =>
      have := jsizeM_le_render m
      simp only [jsizeV, renderJson, List.length_cons, List.length_append,
        List.length_singleton]
      omega

theorem jsizeL_le_render (l : List Json) : jsizeL l ≤ (renderElems l).length + 1 := by
  cases l with
  | nil => simp [jsizeL]
  | cons e es =>
      cases es with
      | nil =>
          have := jsizeV_le_render e
          simp only [jsizeL, renderElems, List.length_append, List.length_cons]
          omega
      | cons e2 es2 =>
          have h1 := jsizeV_le_render e
          have h2 := jsizeL_le_render (e2 :: es2)
          simp only [jsizeL] at h2 ⊢
          simp only [renderElems, List.length_append, List.length_cons]
          omega

theorem jsizeM_le_render (m : List (GoStr × Json)) :
    jsizeM m ≤ (renderMembers m).length + 1 := by
  cases m with
  | nil => simp [jsizeM]
  | cons kv ms =>
      obtain ⟨k, v⟩ := kv
      cases ms with
      | nil =>
          have := jsizeV_le_render v
          simp only [jsizeM, renderMembers, List.length_append, List.length_cons]
          omega
      | cons kv2 ms2 =>
          have h1 := jsizeV_le_render v
          have h2 := jsizeM_le_render (kv2 :: ms2)
          simp only [jsizeM] at h2 ⊢
          simp only [renderMembers, List.length_append, List.length_cons]
          omega

end

/-- Parsing a rendered JSON value gives back the value: the composition
`parseJson ∘ renderJson` is the identity. -/
theorem parseJson_render (j : Json) : parseJson (renderJson j) = some j := by
  unfold parseJson
  have h := parseVal_render j ((renderJson j).length + 1) []
    (jsizeV_le_render j) rfl
  rw [List.append_nil] at h
  rw [h]

/-! ## celery.go: task messages, envelopes and `CeleryClient.Delay`

Go `interface{}` argument values are modelled by `GoVal`: either a
JSON-representable value or a value `json.Marshal` rejects (channels,
functions, ...). -/

inductive GoVal where
  | json (j : Json)
  | unserializable (tag : GoStr)
deriving Repr

/-- `json.Marshal` on a single `interface{}` value. -/
def marshalValue : GoVal → Except GoStr Json
  | .json j => .ok j
  | .unserializable _ => .error (strBytes "json: unsupported type")

/-- `TaskMessage` (celery.go). Field defaults are Go zero values. -/
structure TaskMessage where
  Task : GoStr := []
  ID : GoStr := []
  Args : List GoVal := []
  Kwargs : List (GoStr × GoVal) := []
  ETA : Option GoStr := none
  Retries : Int := 0
deriving Repr

/-- `json.Marshal` of a `TaskMessage`: fields in declaration order under
their JSON tags `task`, `id`, `args`, `kwargs`, `eta`, `retries`. -/
def marshalTaskMessage (tm : TaskMessage) : Except GoStr (List Nat) := do
  let args ← tm.Args.mapM marshalValue
  let kwargs ← tm.Kwargs.mapM (fun kv => do
    let j ← marshalValue kv.2
    pure (kv.1, j))
  pure (renderJson (.obj [
    (strBytes "task", .str tm.Task),
    (strBytes "id", .str tm.ID),
    (strBytes "args", .arr args),
    (strBytes "kwargs", .obj kwargs),
    (strBytes "eta", match tm.ETA with | none => .null | some s => .str s),
    (strBytes "retries", .num tm.Retries)]))

/-- `encodeMessage` (celery.go): build the TaskMessage (nil args replaced
by an empty slice), JSON-marshal it and base64-encode the result. -/
def encodeMessage (taskName : GoStr) (messageId : GoStr)
    (args : Option (List GoVal)) : Except GoStr GoStr :=
  let args := match args with
    | none => ([] : List GoVal)
    | some a => a
  let tm : TaskMessage := {
    Task := taskName
    Args := args
    Kwargs := []
    ID := messageId
    ETA := none
  }
  match marshalTaskMessage tm with
  | .error e => .error e
  | .ok message => .ok (base64Encode message)

structure CeleryDeliveryInfo where
  Priority : Int
  RoutingKey : GoStr
  Exchange : GoStr
deriving Repr

structure CeleryProperties where
  BodyEncoding : GoStr
  CorrelationID : GoStr
  ReplyTo : GoStr
  DeliveryInfo : CeleryDeliveryInfo
  DeliveryMode : Int
  DeliveryTag : GoStr
deriving Repr

structure CeleryMessage where
  Body : GoStr
  Headers : List (GoStr × GoVal) := []
  ContentType : GoStr
  Properties : CeleryProperties
  ContentEncoding : GoStr
deriving Repr

/-- `json.Marshal` of a `CeleryMessage` (tags `body`, `headers` with
omitempty, `content-type`, `properties`, `content-encoding`). -/
def marshalCeleryMessage (cm : CeleryMessage) : Except GoStr (List Nat) := do
  let headers ← cm.Headers.mapM (fun kv => do
    let j ← marshalValue kv.2
    pure (kv.1, j))
  let headerMembers : List (GoStr × Json) :=
    if headers.isEmpty then [] else [(strBytes "headers", .obj headers)]
  pure (renderJson (.obj (
    [(strBytes "body", .str cm.Body)] ++ headerMembers ++
    [(strBytes "content-type", .str cm.ContentType),
     (strBytes "properties", .obj [
       (strBytes "body_encoding", .str cm.Properties.BodyEncoding),
       (strBytes "correlation_id", .str cm.Properties.CorrelationID),
       (strBytes "reply_to", .str cm.Properties.ReplyTo),
       (strBytes "delivery_info", .obj [
         (strBytes "priority", .num cm.Properties.DeliveryInfo.Priority),
         (strBytes "routing_key", .str cm.Properties.DeliveryInfo.RoutingKey),
         (strBytes "exchange", .str cm.Properties.DeliveryInfo.Exchange)]),
       (strBytes "delivery_mode", .num cm.Properties.DeliveryMode),
       (strBytes "delivery_tag", .str cm.Properties.DeliveryTag)]),
     (strBytes "content-encoding", .str cm.ContentEncoding)])))

/-- State of the Redis broker backend: the record of `LPush` calls
(queue key, raw message), newest first, plus an error injected by the
transport (none = healthy connection). -/
structure BrokerState where
  published : List (GoStr × List Nat) := []
  pubErr : Option GoStr := none
deriving Repr

/-- `RedisBroker.Publish` (redis.go): `LPush queue message`. -/
def RedisBroker.Publish (st : BrokerState) (message : List Nat) (queue : GoStr) :
    Except GoStr BrokerState :=
  match st.pubErr with
  | some e => .error e
  | none => .ok { st with published := (queue, message) :: st.published }

/-- Observable outcome of one `CeleryClient.Delay` call: the returned
`(messageId, err)` pair, the broker state after the call, the next unused
index of the uuid supply, and the envelope built (if reached). -/
structure DelayResult where
  messageId : GoStr
  err : Option GoStr
  state : BrokerState
  nextUuid : Nat
  envelope : Option CeleryMessage
deriving Repr

/-- `CeleryClient.Delay` (celery.go). `gen` models `uuid.NewString` as a
supply of identifiers indexed by successive draws, starting at `ctr`. -/
def CeleryClient.Delay (gen : Nat → GoStr) (ctr : Nat) (st : BrokerState)
    (queue : GoStr) (taskName : GoStr) (args : Option (List GoVal)) :
    DelayResult :=
  let messageId := gen ctr
  match encodeMessage taskName messageId args with
  | .error e => ⟨messageId, some e, st, ctr + 1, none⟩
  | .ok encodedMessage =>
    let celeryMessage : CeleryMessage := {
      Body := encodedMessage
      ContentType := strBytes "application/json"
      ContentEncoding := strBytes "utf-8"
      Properties := {
        BodyEncoding := strBytes "base64"
        CorrelationID := gen (ctr + 1)
        ReplyTo := gen (ctr + 2)
        DeliveryInfo := {
          Priority := 0
          RoutingKey := queue
          Exchange := queue
        }
        DeliveryMode := 2
        DeliveryTag := gen (ctr + 3)
      }
    }
    match marshalCeleryMessage celeryMessage with
    | .error e => ⟨messageId, some e, st, ctr + 4, some celeryMessage⟩
    | .ok encodedCeleryMessage =>
      match RedisBroker.Publish st encodedCeleryMessage queue with
      | .error e => ⟨messageId, some e, st, ctr + 4, some celeryMessage⟩
      | .ok st' => ⟨messageId, none, st', ctr + 4, some celeryMessage⟩

/-! ## Decoding pipeline: base64 decode, JSON parse, unmarshal -/

/-- First-match association lookup among JSON object members. -/
def lookupKey (m : List (GoStr × Json)) (k : GoStr) : Option Json :=
  match m with
  | [] => none
  | (k', v) :: rest => if k' = k then some v else lookupKey rest k

/-- `json.Unmarshal` into a `string` field: absent or null leaves the
zero value, a string is taken, anything else is a type error. -/
def unmarshalStrField (m : List (GoStr × Json)) (key : GoStr) (dflt : GoStr) :
    Option GoStr :=
  match lookupKey m key with
  | none => some dflt
  | some .null => some dflt
  | some (.str s) => some s
  | some _ => none

/-- `json.Unmarshal` into the `[]interface{}` args field. -/
def unmarshalArgsField (m : List (GoStr × Json)) (key : GoStr) :
    Option (List GoVal) :=
  match lookupKey m key with
  | none => some []
  | some .null => some []
  | some (.arr l) => some (l.map GoVal.json)
  | some _ => none

/-- `json.Unmarshal` into the `map[string]interface{}` kwargs field. -/
def unmarshalKwargsField (m : List (GoStr × Json)) (key : GoStr) :
    Option (List (GoStr × GoVal)) :=
  match lookupKey m key with
  | none => some []
  | some .null => some []
  | some (.obj mm) => some (mm.map (fun kv => (kv.1, GoVal.json kv.2)))
  | some _ => none

/-- `json.Unmarshal` into the `*string` eta field. -/
def unmarshalEtaField (m : List (GoStr × Json)) (key : GoStr) :
    Option (Option GoStr) :=
  match lookupKey m key with
  | none => some none
  | some .null => some none
  | some (.str s) => some (some s)
  | some _ => none

/-- `json.Unmarshal` into an `int` field. -/
def unmarshalIntField (m : List (GoStr × Json)) (key : GoStr) (dflt : Int) :
    Option Int :=
  match lookupKey m key with
  | none => some dflt
  | some .null => some dflt
  | some (.num n) => some n
  | some _ => none

/-- `json.Unmarshal` of a JSON value into a `TaskMessage`. -/
def unmarshalTaskMessage (j : Json) : Option TaskMessage :=
  match j with
  | .obj m => do
      let task ← unmarshalStrField m (strBytes "task") []
      let id ← unmarshalStrField m (strBytes "id") []
      let args ← unmarshalArgsField m (strBytes "args")
      let kwargs ← unmarshalKwargsField m (strBytes "kwargs")
      let eta ← unmarshalEtaField m (strBytes "eta")
      let retries ← unmarshalIntField m (strBytes "retries") 0
      pure { Task := task, ID := id, Args := args, Kwargs := kwargs,
             ETA := eta, Retries := retries }
  | _ => none

/-- The decode pipeline of the round-trip property: base64-decode the
envelope body, parse the bytes as JSON, unmarshal into a TaskMessage. -/
def decodeBody (body : GoStr) : Option TaskMessage := do
  let bytes ← base64Decode body
  let j ← parseJson bytes
  unmarshalTaskMessage j

/-! ## Well-formedness: every byte of a value is a genuine byte -/

mutual

def jsonWF : Json → Bool
  | .null => true
  | .bool _ => true
  | .num _ => true
  | .str s => s.all (fun b => b < 256)
  | .arr l => jsonWFL l
  | .obj m => jsonWFM m

def jsonWFL : List Json → Bool
  | [] => true
  | j :: rest => jsonWF j && jsonWFL rest

def jsonWFM : List (GoStr × Json) → Bool
  | [] => true
  | (k, v) :: rest => k.all (fun b => b < 256) && jsonWF v && jsonWFM rest

end

theorem byteWF_append {a b : GoStr} (ha : ByteWF a) (hb : ByteWF b) :
    ByteWF (a ++ b) := by
  intro x hx
  rcases List.mem_append.mp hx with h | h
  exacts [ha x h, hb x h]

theorem byteWF_natDigits (m : Nat) : ByteWF (natDigits m) := by
  intro x hx
  have := natDigits_digits m x hx
  simp only [isDigit, decide_eq_true_eq] at this
  omega

theorem byteWF_renderInt (n : Int) : ByteWF (renderInt n) := by
  rw [renderInt]
  split
  · intro x hx
    rcases List.mem_cons.mp hx with h | h
    · omega
    · exact byteWF_natDigits _ x h
  · exact byteWF_natDigits _

theorem byteWF_escapeStr (s : GoStr) (hs : ByteWF s) : ByteWF (escapeStr s) := by
  intro x hx
  simp only [escapeStr, List.mem_flatMap] at hx
  obtain ⟨b, hb, hxb⟩ := hx
  have hb' := hs b hb
  by_cases h : b = 34 ∨ b = 92 <;>
    simp only [escapeByte, if_pos, if_neg, h, ite_true, ite_false,
      List.mem_cons, List.mem_singleton, List.not_mem_nil, or_false] at hxb
  · rcases hxb with rfl | rfl <;> omega
  · rw [hxb]; omega

theorem byteWF_ofAll {s : GoStr} (h : s.all (fun b => b < 256) = true) :
    ByteWF s := by
  intro x hx
  have := List.all_eq_true.mp h x hx
  simpa using this

mutual

theorem byteWF_render (j : Json) (h : jsonWF j = true) : ByteWF (renderJson j) := by
  cases j with
  | null =>
      intro x hx
      simp only [renderJson, List.mem_cons, List.not_mem_nil, or_false] at hx
      rcases hx with rfl | rfl | rfl | rfl <;> omega
  | bool b =>
      cases b <;>
        (intro x hx
         simp only [renderJson, List.mem_cons, List.not_mem_nil, or_false] at hx) <;>
        omega
  | num n => exact byteWF_renderInt n
  | str s =>
      rw [renderJson]
      intro x hx
      rcases List.mem_cons.mp hx with rfl | h'
      · omega
      · rcases List.mem_append.mp h' with h'' | h''
        · exact byteWF_escapeStr s (byteWF_ofAll (by simpa [jsonWF] using h)) x h''
        · simp only [List.mem_singleton] at h''; omega
  | arr l =>
      rw [renderJson]
      intro x hx
      rcases List.mem_cons.mp hx with rfl | h'
      · omega
      · rcases List.mem_append.mp h' with h'' | h''
        · exact byteWF_renderElems l (by simpa [jsonWF] using h) x h''
        · simp only [List.mem_singleton] at h''; omega
  | obj m =>
      rw [renderJson]
      intro x hx
      rcases List.mem_cons.mp hx with rfl | h'
      · omega
      · rcases List.mem_append.mp h' with h'' | h''
        · exact byteWF_renderMembers m (by simpa [jsonWF] using h) x h''
        · simp only [List.mem_singleton] at h''; omega

theorem byteWF_renderElems (l : List Json) (h : jsonWFL l = true) :
    ByteWF (renderElems l) := by
  cases l with
  | nil => intro x hx; simp [renderElems] at hx
  | cons e es =>
      simp only [jsonWFL, Bool.and_eq_true] at h
      cases es with
      | nil =>
          rw [renderElems]
          exact byteWF_render e h.1
      | cons e2 es2 =>
          simp only [renderElems]
          intro x hx
          rcases List.mem_append.mp hx with h' | h'
          · exact byteWF_render e h.1 x h'
          · rcases List.mem_cons.mp h' with rfl | h''
            · omega
            · exact byteWF_renderElems (e2 :: es2) h.2 x h''

theorem byteWF_renderMembers (m : List (GoStr × Json)) (h : jsonWFM m = true) :
    ByteWF (renderMembers m) := by
  cases m with
  | nil => intro x hx; simp [renderMembers] at hx
  | cons kv ms =>
      obtain ⟨k, v⟩ := kv
      simp only [jsonWFM, Bool.and_eq_true] at h
      have hmember : ByteWF (34 :: (escapeStr k ++ [34, 58]) ++ renderJson v) := by
        intro x hx
        rcases List.mem_append.mp hx with h' | h'
        · rcases List.mem_cons.mp h' with rfl | h''
          · omega
          · rcases List.mem_append.mp h'' with h3 | h3
            · exact byteWF_escapeStr k (byteWF_ofAll h.1.1) x h3
            · fin_cases h3 <;> omega
        · exact byteWF_render v h.1.2 x h'
      cases ms with
      | nil =>
          rw [renderMembers]
          exact hmember
      | cons kv2 ms2 =>
          simp only [renderMembers]
          intro x hx
          rcases List.mem_append.mp hx with h' | h'
          · exact hmember x h'
          · rcases List.mem_cons.mp h' with rfl | h''
            · omega
            · exact byteWF_renderMembers (kv2 :: ms2) h.2 x h''

end

/-! ## Round-trip of the encoded task message (Submit/Delay body) -/

theorem all_of_byteWF {s : GoStr} (h : ByteWF s) :
    s.all (fun b => b < 256) = true :=
  List.all_eq_true.mpr (fun x hx => decide_eq_true (h x hx))

theorem mapM_loop_marshalValue_json (as : List Json) :
    ∀ acc : List Json,
    List.mapM.loop marshalValue (as.map GoVal.json) acc =
      Except.ok (acc.reverse ++ as) := by
  induction as with
  | nil => intro acc; simp [List.mapM.loop]; rfl
  | cons a as ih =>
      intro acc
      simp only [List.map_cons, List.mapM.loop, marshalValue, ih,
        Bind.bind, Except.bind]
      simp

theorem mapM_marshalValue_json (A : List Json) :
    (A.map GoVal.json).mapM marshalValue = Except.ok A := by
  simpa using mapM_loop_marshalValue_json A []

/-- The members of the JSON document `encodeMessage` marshals for task
`taskName`, identifier `mid` and JSON-representable arguments `args`. -/
def taskMessageMembers (taskName mid : GoStr) (args : List Json) :
    List (GoStr × Json) :=
  [(strBytes "task", .str taskName),
   (strBytes "id", .str mid),
   (strBytes "args", .arr args),
   (strBytes "kwargs", .obj []),
   (strBytes "eta", .null),
   (strBytes "retries", .num 0)]

/-- The JSON document `encodeMessage` marshals. -/
def taskMessageJson (taskName mid : GoStr) (args : List Json) : Json :=
  .obj (taskMessageMembers taskName mid args)

theorem encodeMessage_json (taskName mid : GoStr) (A : List Json) :
    encodeMessage taskName mid (some (A.map GoVal.json)) =
      .ok (base64Encode (renderJson (taskMessageJson taskName mid A))) := by
  simp [encodeMessage, marshalTaskMessage, taskMessageJson, taskMessageMembers,
    mapM_loop_marshalValue_json, List.mapM.loop]

theorem jsonWF_taskMessageJson (taskName mid : GoStr) (A : List Json)
    (hTask : ByteWF taskName) (hId : ByteWF mid) (hA : jsonWFL A = true) :
    jsonWF (taskMessageJson taskName mid A) = true := by
  simp [taskMessageJson, taskMessageMembers, jsonWF, jsonWFM, jsonWFL, strBytes,
    all_of_byteWF hTask, all_of_byteWF hId, hA]

theorem unmarshal_taskMessageJson (taskName mid : GoStr) (A : List Json) :
    unmarshalTaskMessage (taskMessageJson taskName mid A) =
      some { Task := taskName, ID := mid, Args := A.map GoVal.json,
             Kwargs := [], ETA := none, Retries := 0 } := by
  simp [taskMessageJson, taskMessageMembers, unmarshalTaskMessage, unmarshalStrField,
    unmarshalArgsField, unmarshalKwargsField, unmarshalEtaField,
    unmarshalIntField, lookupKey, strBytes]

theorem decodeBody_encodeMessage (taskName mid : GoStr) (A : List Json)
    (hTask : ByteWF taskName) (hId : ByteWF mid) (hA : jsonWFL A = true) :
    decodeBody (base64Encode (renderJson (taskMessageJson taskName mid A))) =
      some { Task := taskName, ID := mid, Args := A.map GoVal.json,
             Kwargs := [], ETA := none, Retries := 0 } := by
  have hwf : ByteWF (renderJson (taskMessageJson taskName mid A)) :=
    byteWF_render _ (jsonWF_taskMessageJson taskName mid A hTask hId hA)
  simp [decodeBody, base64_roundtrip _ hwf, parseJson_render,
    unmarshal_taskMessageJson]

/-- C1 (helper): on serializable arguments `Delay` builds an envelope. -/
theorem delay_success (gen : Nat → GoStr) (ctr : Nat) (st : BrokerState)
    (queue taskName : GoStr) (A : List Json) :
    (CeleryClient.Delay gen ctr st queue taskName
        (some (A.map GoVal.json))).envelope =
      some {
        Body := base64Encode (renderJson (taskMessageJson taskName (gen ctr) A))
        ContentType := strBytes "application/json"
        ContentEncoding := strBytes "utf-8"
        Properties := {
          BodyEncoding := strBytes "base64"
          CorrelationID := gen (ctr + 1)
          ReplyTo := gen (ctr + 2)
          DeliveryInfo := {
            Priority := 0
            RoutingKey := queue
            Exchange := queue
          }
          DeliveryMode := 2
          DeliveryTag := gen (ctr + 3)
        }
      } := by
  cases hp : st.pubErr <;>
    simp [CeleryClient.Delay, encodeMessage_json, marshalCeleryMessage,
      RedisBroker.Publish, hp, List.mapM.loop, pure, Except.pure,
      Bind.bind, Except.bind]

theorem delay_messageId (gen : Nat → GoStr) (ctr : Nat) (st : BrokerState)
    (queue taskName : GoStr) (args : Option (List GoVal)) :
    (CeleryClient.Delay gen ctr st queue taskName args).messageId = gen ctr := by
  unfold CeleryClient.Delay
  dsimp only
  split
  · rfl
  · split
    · rfl
    · split <;> rfl

/-- C1: for every Delay call with task name `taskName` and
JSON-representable argument list `A`, base64-decoding the produced
envelope's `body` and parsing it as JSON yields a TaskMessage whose
`task` is `taskName`, `args` is `A`, `id` is the identifier returned to
the caller, `kwargs` is the empty mapping, `eta` is unset and `retries`
is 0. -/
theorem delay_body_roundtrip (gen : Nat → GoStr) (ctr : Nat)
    (st : BrokerState) (queue taskName : GoStr) (A : List Json)
    (hTask : ByteWF taskName) (hId : ByteWF (gen ctr))
    (hA : jsonWFL A = true) :
    ∃ env : CeleryMessage,
      (CeleryClient.Delay gen ctr st queue taskName
          (some (A.map GoVal.json))).envelope = some env ∧
      decodeBody env.Body =
        some { Task := taskName
               ID := (CeleryClient.Delay gen ctr st queue taskName
                        (some (A.map GoVal.json))).messageId
               Args := A.map GoVal.json
               Kwargs := []
               ETA := none
               Retries := 0 } := by
  refine ⟨_, delay_success gen ctr st queue taskName A, ?_⟩
  rw [delay_messageId]
  exact decodeBody_encodeMessage taskName (gen ctr) A hTask hId hA

/-- Witness for C1 at the example script's task name and argument. -/
theorem delay_body_roundtrip_witness :
    ByteWF (strBytes "worker.fake_load_task") ∧
    jsonWFL [Json.num 4000] = true ∧
    ∃ env : CeleryMessage,
      (CeleryClient.Delay (fun n => [65 + n % 26]) 0 {}
          (strBytes "realtime") (strBytes "worker.fake_load_task")
          (some ([Json.num 4000].map GoVal.json))).envelope = some env ∧
      decodeBody env.Body =
        some { Task := strBytes "worker.fake_load_task"
               ID := (CeleryClient.Delay (fun n => [65 + n % 26]) 0 {}
                        (strBytes "realtime") (strBytes "worker.fake_load_task")
                        (some ([Json.num 4000].map GoVal.json))).messageId
               Args := [Json.num 4000].map GoVal.json
               Kwargs := []
               ETA := none
               Retries := 0 } :=
  ⟨by decide, by decide,
   delay_body_roundtrip (fun n => [65 + n % 26]) 0 {}
     (strBytes "realtime") (strBytes "worker.fake_load_task")
     [Json.num 4000] (by decide) (by decide) (by decide)⟩

/-- C5: every envelope produced by Delay carries the target queue as both
routing key and exchange, body_encoding "base64", delivery_mode 2,
priority 0, content-type "application/json" and content-encoding
"utf-8". -/
theorem delay_envelope_invariants (gen : Nat → GoStr) (ctr : Nat)
    (st : BrokerState) (queue taskName : GoStr) (args : Option (List GoVal))
    (env : CeleryMessage)
    (h : (CeleryClient.Delay gen ctr st queue taskName args).envelope = some env) :
    env.Properties.DeliveryInfo.RoutingKey = queue ∧
    env.Properties.DeliveryInfo.Exchange = queue ∧
    env.Properties.BodyEncoding = strBytes "base64" ∧
    env.Properties.DeliveryMode = 2 ∧
    env.Properties.DeliveryInfo.Priority = 0 ∧
    env.ContentType = strBytes "application/json" ∧
    env.ContentEncoding = strBytes "utf-8" := by
  unfold CeleryClient.Delay at h
  dsimp only at h
  split at h
  · simp at h
  · split at h
    · simp only [Option.some.injEq] at h
      subst h
      exact ⟨rfl, rfl, rfl, rfl, rfl, rfl, rfl⟩
    · split at h <;>
        (simp only [Option.some.injEq] at h
         subst h
         exact ⟨rfl, rfl, rfl, rfl, rfl, rfl, rfl⟩)

/-- Witness for C5 on a concretely produced envelope. -/
theorem delay_envelope_invariants_witness :
    ∃ env : CeleryMessage,
      (CeleryClient.Delay (fun n => [65 + n % 26]) 0 {}
          (strBytes "realtime") (strBytes "worker.fake_load_task")
          (some ([Json.num 4000].map GoVal.json))).envelope = some env ∧
      env.Properties.DeliveryInfo.RoutingKey = strBytes "realtime" ∧
      env.Properties.DeliveryInfo.Exchange = strBytes "realtime" ∧
      env.Properties.BodyEncoding = strBytes "base64" ∧
      env.Properties.DeliveryMode = 2 ∧
      env.Properties.DeliveryInfo.Priority = 0 ∧
      env.ContentType = strBytes "application/json" ∧
      env.ContentEncoding = strBytes "utf-8" := by
  refine ⟨_, delay_success (fun n => [65 + n % 26]) 0 {}
    (strBytes "realtime") (strBytes "worker.fake_load_task") [Json.num 4000], ?_⟩
  exact delay_envelope_invariants (fun n => [65 + n % 26]) 0 {}
    (strBytes "realtime") (strBytes "worker.fake_load_task")
    (some ([Json.num 4000].map GoVal.json)) _
    (delay_success (fun n => [65 + n % 26]) 0 {}
      (strBytes "realtime") (strBytes "worker.fake_load_task") [Json.num 4000])

/-- C10: `Delay`'s named return `messageId` is assigned the freshly drawn
identifier before any fallible step, so even when the call fails the
returned string is that identifier, which is non-empty whenever the
generator produces non-empty identifiers (as `uuid.NewString` does). -/
theorem delay_fail_returns_fresh_id (gen : Nat → GoStr) (ctr : Nat)
    (st : BrokerState) (queue taskName : GoStr) (args : Option (List GoVal))
    (hgen : gen ctr ≠ [])
    (_hfail : (CeleryClient.Delay gen ctr st queue taskName args).err.isSome) :
    (CeleryClient.Delay gen ctr st queue taskName args).messageId = gen ctr ∧
    (CeleryClient.Delay gen ctr st queue taskName args).messageId ≠ [] := by
  rw [delay_messageId]
  exact ⟨rfl, hgen⟩

/-- Witness for C10: a Delay call failing on an unserializable argument
still returns the drawn identifier. -/
theorem delay_fail_returns_fresh_id_witness :
    ([65] : GoStr) ≠ [] ∧
    (CeleryClient.Delay (fun n => [65 + n % 26]) 0 {}
        (strBytes "q") (strBytes "t")
        (some [GoVal.unserializable []])).err.isSome = true ∧
    ((CeleryClient.Delay (fun n => [65 + n % 26]) 0 {}
        (strBytes "q") (strBytes "t")
        (some [GoVal.unserializable []])).messageId = [65] ∧
     (CeleryClient.Delay (fun n => [65 + n % 26]) 0 {}
        (strBytes "q") (strBytes "t")
        (some [GoVal.unserializable []])).messageId ≠ []) :=
  ⟨by decide, by decide,
   delay_fail_returns_fresh_id (fun n => [65 + n % 26]) 0 {}
     (strBytes "q") (strBytes "t") (some [GoVal.unserializable []])
     (by decide) (by decide)⟩

theorem mapM_loop_marshalValue_bad (l : List GoVal) :
    ∀ acc : List Json, (∃ t, GoVal.unserializable t ∈ l) →
    ∃ e, List.mapM.loop marshalValue l acc = Except.error e := by
  induction l with
  | nil => intro acc h; obtain ⟨t, ht⟩ := h; simp at ht
  | cons v vs ih =>
      intro acc h
      obtain ⟨t, ht⟩ := h
      cases v with
      | unserializable t' =>
          exact ⟨strBytes "json: unsupported type",
            by simp [List.mapM.loop, marshalValue, Bind.bind, Except.bind]⟩
      | json j =>
          have hmem : GoVal.unserializable t ∈ vs := by
            rcases List.mem_cons.mp ht with h' | h'
            · exact absurd h' (by simp)
            · exact h'
          obtain ⟨e, he⟩ := ih (j :: acc) ⟨t, hmem⟩
          exact ⟨e, by simp [List.mapM.loop, marshalValue, Bind.bind,
            Except.bind, he]⟩

/-- C7: if serialization of the task message fails during Delay (a
non-representable argument value), the error is surfaced to the caller
and nothing is published — the broker state is unchanged. -/
theorem delay_serialization_error_no_publish (gen : Nat → GoStr) (ctr : Nat)
    (st : BrokerState) (queue taskName : GoStr) (argsList : List GoVal)
    (hbad : ∃ t, GoVal.unserializable t ∈ argsList) :
    (∃ e, (CeleryClient.Delay gen ctr st queue taskName
        (some argsList)).err = some e) ∧
    (CeleryClient.Delay gen ctr st queue taskName (some argsList)).state = st ∧
    (CeleryClient.Delay gen ctr st queue taskName
        (some argsList)).state.published = st.published := by
  obtain ⟨e, he⟩ := mapM_loop_marshalValue_bad argsList [] hbad
  have henc : encodeMessage taskName (gen ctr) (some argsList) =
      Except.error e := by
    simp [encodeMessage, marshalTaskMessage, List.mapM, he, Bind.bind,
      Except.bind]
  simp [CeleryClient.Delay, henc]

/-- Witness for C7 at a concrete unserializable argument. -/
theorem delay_serialization_error_no_publish_witness :
    (∃ t, GoVal.unserializable t ∈ [GoVal.unserializable ([] : GoStr)]) ∧
    ((∃ e, (CeleryClient.Delay (fun n => [65 + n % 26]) 0 {}
        (strBytes "q") (strBytes "t")
        (some [GoVal.unserializable []])).err = some e) ∧
     (CeleryClient.Delay (fun n => [65 + n % 26]) 0 {}
        (strBytes "q") (strBytes "t")
        (some [GoVal.unserializable []])).state = {} ∧
     (CeleryClient.Delay (fun n => [65 + n % 26]) 0 {}
        (strBytes "q") (strBytes "t")
        (some [GoVal.unserializable []])).state.published =
       BrokerState.published {}) :=
  ⟨⟨[], by simp⟩,
   delay_serialization_error_no_publish (fun n => [65 + n % 26]) 0 {}
     (strBytes "q") (strBytes "t") [GoVal.unserializable []]
     ⟨[], by simp⟩⟩

/-- C8: a nil argument list is encoded exactly like an empty one, and the
encoded task message's `args` field is present and is the empty JSON
array (never absent, never null). -/
theorem encode_nil_args_empty_array (taskName mid : GoStr)
    (hTask : ByteWF taskName) (hId : ByteWF mid) :
    encodeMessage taskName mid none = encodeMessage taskName mid (some []) ∧
    ∃ body mem,
      encodeMessage taskName mid none = .ok body ∧
      (base64Decode body).bind parseJson = some (.obj mem) ∧
      lookupKey mem (strBytes "args") = some (.arr []) := by
  constructor
  · rfl
  · have henc : encodeMessage taskName mid none =
        .ok (base64Encode (renderJson (taskMessageJson taskName mid []))) := by
      have := encodeMessage_json taskName mid []
      simpa using this
    refine ⟨_, taskMessageMembers taskName mid [], henc, ?_, ?_⟩
    · have hwf : ByteWF (renderJson (taskMessageJson taskName mid [])) :=
        byteWF_render _ (jsonWF_taskMessageJson taskName mid [] hTask hId rfl)
      show (base64Decode (base64Encode
          (renderJson (taskMessageJson taskName mid [])))).bind parseJson =
        some (taskMessageJson taskName mid [])
      rw [base64_roundtrip _ hwf]
      simp [parseJson_render]
    · simp [taskMessageMembers, lookupKey, strBytes]

/-- Witness for C8. -/
theorem encode_nil_args_empty_array_witness :
    ByteWF (strBytes "worker.fake_load_task") ∧ ByteWF (strBytes "id-1") ∧
    (encodeMessage (strBytes "worker.fake_load_task") (strBytes "id-1") none =
       encodeMessage (strBytes "worker.fake_load_task") (strBytes "id-1")
         (some []) ∧
     ∃ body mem,
       encodeMessage (strBytes "worker.fake_load_task") (strBytes "id-1")
           none = .ok body ∧
       (base64Decode body).bind parseJson = some (.obj mem) ∧
       lookupKey mem (strBytes "args") = some (.arr [])) :=
  ⟨by decide, by decide,
   encode_nil_args_empty_array (strBytes "worker.fake_load_task")
     (strBytes "id-1") (by decide) (by decide)⟩

/-! ## Uniqueness of generated identifiers across successive Delay calls -/

/-- `n` successive `Delay` calls with identical queue, task name and
arguments, threading the uuid supply and broker state. -/
def delayRun (gen : Nat → GoStr) (queue taskName : GoStr)
    (args : Option (List GoVal)) : Nat → Nat → BrokerState → List DelayResult
  | 0, _, _ => []
  | n + 1, ctr, st =>
      let r := CeleryClient.Delay gen ctr st queue taskName args
      r :: delayRun gen queue taskName args n r.nextUuid r.state

/-- The correlation, reply-to and delivery-tag identifiers of a call's
envelope. -/
def envelopeIds (r : DelayResult) : List GoStr :=
  match r.envelope with
  | none => []
  | some env => [env.Properties.CorrelationID, env.Properties.ReplyTo,
                 env.Properties.DeliveryTag]

/-- All identifiers drawn by a sequence of calls: the task identifier and
the three envelope identifiers of each call, in order. -/
def allIds (rs : List DelayResult) : List GoStr :=
  rs.flatMap (fun r => r.messageId :: envelopeIds r)

theorem delay_success_shape (gen : Nat → GoStr) (ctr : Nat) (st : BrokerState)
    (queue taskName : GoStr) (A : List Json) :
    (CeleryClient.Delay gen ctr st queue taskName
        (some (A.map GoVal.json))).nextUuid = ctr + 4 ∧
    envelopeIds (CeleryClient.Delay gen ctr st queue taskName
        (some (A.map GoVal.json))) =
      [gen (ctr + 1), gen (ctr + 2), gen (ctr + 3)] := by
  constructor
  · cases hp : st.pubErr <;>
      simp [CeleryClient.Delay, encodeMessage_json, marshalCeleryMessage,
        RedisBroker.Publish, hp, List.mapM.loop, pure, Except.pure,
        Bind.bind, Except.bind]
  · rw [envelopeIds, delay_success]

theorem allIds_delayRun (gen : Nat → GoStr) (queue taskName : GoStr)
    (A : List Json) :
    ∀ (n ctr : Nat) (st : BrokerState),
    allIds (delayRun gen queue taskName (some (A.map GoVal.json)) n ctr st) =
      (List.range' ctr (4 * n) 1).map gen := by
  intro n
  induction n with
  | zero => intro ctr st; rfl
  | succ n ih =>
      intro ctr st
      obtain ⟨hnext, hids⟩ := delay_success_shape gen ctr st queue taskName A
      simp only [delayRun, allIds, List.flatMap_cons, delay_messageId, hids]
      rw [← allIds, hnext, ih (ctr + 4)]
      have h4 : List.range' ctr 4 1 = [ctr, ctr + 1, ctr + 2, ctr + 3] := by
        simp [List.range']
      have happ := List.range'_append ctr 4 (4 * n) 1
      simp only [one_mul] at happ
      have hmul : 4 * (n + 1) = 4 * n + 4 := by ring
      rw [hmul, ← happ, List.map_append, h4]
      simp

theorem map_messageId_sublist_allIds (rs : List DelayResult) :
    (rs.map (·.messageId)).Sublist (allIds rs) := by
  induction rs with
  | nil => simp [allIds]
  | cons r rest ih =>
      simp only [List.map_cons, allIds, List.flatMap_cons, List.cons_append]
      refine List.Sublist.cons₂ _ ?_
      exact ih.trans (List.sublist_append_right _ _)

theorem flatMap_envelopeIds_sublist_allIds (rs : List DelayResult) :
    (rs.flatMap envelopeIds).Sublist (allIds rs) := by
  induction rs with
  | nil => simp [allIds]
  | cons r rest ih =>
      simp only [List.flatMap_cons, allIds, List.cons_append]
      refine List.Sublist.cons _ ?_
      exact List.Sublist.append (List.Sublist.refl _) ih

/-- C6: for any number of successive Delay calls with identical task name
and arguments, all generated task identifiers are pairwise distinct, and
the correlation, reply-to and delivery-tag identifiers within and across
the produced envelopes are pairwise distinct, provided the identifier
generator yields fresh (injective) values. -/
theorem delay_ids_distinct (gen : Nat → GoStr) (queue taskName : GoStr)
    (A : List Json) (hinj : Function.Injective gen)
    (n ctr : Nat) (st : BrokerState) :
    ((delayRun gen queue taskName (some (A.map GoVal.json)) n ctr st).map
        (·.messageId)).Nodup ∧
    ((delayRun gen queue taskName (some (A.map GoVal.json)) n ctr st).flatMap
        envelopeIds).Nodup := by
  have hall : (allIds (delayRun gen queue taskName
      (some (A.map GoVal.json)) n ctr st)).Nodup := by
    rw [allIds_delayRun]
    exact List.Nodup.map hinj (List.nodup_range' _ _)
  exact ⟨(map_messageId_sublist_allIds _).nodup hall,
    (flatMap_envelopeIds_sublist_allIds _).nodup hall⟩

/-- Witness for C6: two successive calls with an injective generator. -/
theorem delay_ids_distinct_witness :
    ((delayRun (fun n => [n]) (strBytes "q") (strBytes "t")
        (some ([Json.num 4000].map GoVal.json)) 2 0 {}).map
        (·.messageId)).Nodup ∧
    ((delayRun (fun n => [n]) (strBytes "q") (strBytes "t")
        (some ([Json.num 4000].map GoVal.json)) 2 0 {}).flatMap
        envelopeIds).Nodup :=
  delay_ids_distinct (fun n => [n]) (strBytes "q") (strBytes "t")
    [Json.num 4000] (fun a b h => by simpa using h) 2 0 {}

/-! ## celery-redis.go: TaskCompleted and WaitForTaskCompleted

The gocelery backend (`RedisCeleryBackend.GetResult`) is modelled at its
interface: a Redis `GET` on the task's result key returns the stored raw
bytes or, when the key is absent, the backend library's hard-coded
`"result not available"` error; a present value is JSON-unmarshalled into
a result message, and unmarshalling failure is an error distinct from
the not-available one. -/

/-- `ResultMessage` (celery.go / gocelery): the structure stored under a
task's result key. -/
structure ResultMessage where
  ID : GoStr := []
  Status : GoStr := []
  Traceback : Option GoVal := none
  Result : Option GoVal := none
  Children : List GoVal := []
deriving Repr

/-- `json.Unmarshal` of a JSON value into a `ResultMessage`. -/
def unmarshalResultMessage (j : Json) : Option ResultMessage :=
  match j with
  | .obj m => do
      let id ← unmarshalStrField m (strBytes "task_id") []
      let status ← unmarshalStrField m (strBytes "status") []
      pure { ID := id, Status := status }
  | _ => none

/-- The error message hard-coded in the gocelery client library. -/
def resultNotAvailable : GoStr := strBytes "result not available"

/-- The Redis result store: raw values keyed by task identifier. -/
abbrev ResultStore := List (GoStr × List Nat)

def lookupStore (store : ResultStore) (key : GoStr) : Option (List Nat) :=
  match store with
  | [] => none
  | (k, v) :: rest => if k = key then some v else lookupStore rest key

/-- Model of gocelery's `RedisCeleryBackend.GetResult`: `GET` the raw
value, error `"result not available"` when the key is absent, otherwise
JSON-decode it. -/
def backendGetResult (store : ResultStore) (taskID : GoStr) :
    Except GoStr ResultMessage :=
  match lookupStore store taskID with
  | none => .error resultNotAvailable
  | some raw =>
      match (parseJson raw).bind unmarshalResultMessage with
      | none => .error (strBytes "json: cannot unmarshal result")
      | some rm => .ok rm

/-- `Celery.TaskCompleted` (celery-redis.go): the distinguished
not-available error maps to `(false, nil)`, any other error propagates as
`(false, err)`, and a decoded result yields `(true, nil)`. -/
def Celery.TaskCompleted (store : ResultStore) (taskID : GoStr) :
    Bool × Option GoStr :=
  match backendGetResult store taskID with
  | .error e => if e = resultNotAvailable then (false, none) else (false, some e)
  | .ok _ => (true, none)

/-- C2: a task identifier never submitted (absent from the store) makes
TaskCompleted return `(false, nil)` — not an error — while a present but
undecodable value propagates as `(false, error)` with an error distinct
from the not-found condition. -/
theorem taskCompleted_not_found (store : ResultStore) (taskID : GoStr) :
    (lookupStore store taskID = none →
      Celery.TaskCompleted store taskID = (false, none)) ∧
    (∀ raw, lookupStore store taskID = some raw →
      (parseJson raw).bind unmarshalResultMessage = none →
      ∃ e, e ≠ resultNotAvailable ∧
        Celery.TaskCompleted store taskID = (false, some e)) := by
  constructor
  · intro habsent
    simp [Celery.TaskCompleted, backendGetResult, habsent]
  · intro raw hraw hdec
    have hne : strBytes "json: cannot unmarshal result" ≠ resultNotAvailable := by
      decide
    refine ⟨strBytes "json: cannot unmarshal result", hne, ?_⟩
    simp [Celery.TaskCompleted, backendGetResult, hraw, hdec, hne]

/-- Witness for C2: an empty store and a store holding an undecodable
value. -/
theorem taskCompleted_not_found_witness :
    Celery.TaskCompleted ([] : ResultStore) (strBytes "never-submitted") =
      (false, none) ∧
    ∃ e, e ≠ resultNotAvailable ∧
      Celery.TaskCompleted [(strBytes "t1", [123])] (strBytes "t1") =
        (false, some e) :=
  ⟨(taskCompleted_not_found [] (strBytes "never-submitted")).1 (by decide),
   (taskCompleted_not_found [(strBytes "t1", [123])] (strBytes "t1")).2
     [123] (by decide) rfl⟩

/-- `Celery.WaitForTaskCompleted` (celery-redis.go): the select loop over
the ticker and the timeout channel. `checks k` is the result of the
`TaskCompleted` call at the `k`-th tick; `fuel` is the number of ticker
fires before the timeout channel fires; the error component of each check
is discarded (`completed, _ :=`). -/
def Celery.WaitForTaskCompleted (checks : Nat → Bool × Option GoStr) :
    Nat → Nat → Bool × Option GoStr
  | 0, _ => (false, none)
  | fuel + 1, k =>
      let completed := (checks k).1
      if completed then (true, none)
      else Celery.WaitForTaskCompleted checks fuel (k + 1)

/-- C3: the wait loop never returns an error: it ends with `(true, nil)`
exactly when some polled check before the deadline reported completion,
and with `(false, nil)` when the deadline fires first; errors of
individual checks are discarded. -/
theorem waitForTaskCompleted_no_error (checks : Nat → Bool × Option GoStr)
    (fuel : Nat) :
    (Celery.WaitForTaskCompleted checks fuel 0).2 = none ∧
    ((Celery.WaitForTaskCompleted checks fuel 0).1 = true ↔
      ∃ k < fuel, (checks k).1 = true) := by
  have main : ∀ (f s : Nat),
      (Celery.WaitForTaskCompleted checks f s).2 = none ∧
      ((Celery.WaitForTaskCompleted checks f s).1 = true ↔
        ∃ k, k < f ∧ (checks (s + k)).1 = true) := by
    intro f
    induction f with
    | zero =>
        intro s
        simp [Celery.WaitForTaskCompleted]
    | succ f ih =>
        intro s
        by_cases hc : (checks s).1 = true
        · constructor
          · simp [Celery.WaitForTaskCompleted, hc]
          · simp only [Celery.WaitForTaskCompleted, hc, if_true]
            constructor
            · intro _
              exact ⟨0, by omega, by simpa using hc⟩
            · intro _
              trivial
        · have hstep : Celery.WaitForTaskCompleted checks (f + 1) s =
              Celery.WaitForTaskCompleted checks f (s + 1) := by
            simp [Celery.WaitForTaskCompleted, hc]
          rw [hstep]
          obtain ⟨h1, h2⟩ := ih (s + 1)
          refine ⟨h1, h2.trans ?_⟩
          constructor
          · rintro ⟨k, hk, hck⟩
            exact ⟨k + 1, by omega, by
              have : s + 1 + k = s + (k + 1) := by omega
              rwa [this] at hck⟩
          · rintro ⟨k, hk, hck⟩
            cases k with
            | zero => exact absurd (by simpa using hck) hc
            | succ k =>
                exact ⟨k, by omega, by
                  have : s + (k + 1) = s + 1 + k := by omega
                  rwa [this] at hck⟩
  have h := main fuel 0
  refine ⟨h.1, h.2.trans ?_⟩
  constructor
  · rintro ⟨k, hk, hck⟩
    exact ⟨k, hk, by simpa using hck⟩
  · rintro ⟨k, hk, hck⟩
    exact ⟨k, hk, by simpa using hck⟩

/-! ## celery-redis.go: configuration options, defaults and validation -/

/-- `options` (celery-redis.go). Durations in nanoseconds (Go
`time.Duration`). Zero values are the Go zero values. -/
structure options where
  Url : String := ""
  Addrs : List String := []
  MasterName : String := ""
  Queue : String := ""
  Timeout : Int := 0
  GetRetryInterval : Int := 0
deriving Repr, DecidableEq

/-- ASCII lowering of one character (model of Go's case-insensitive JSON
field matching, which folds ASCII case). -/
def charLower (c : Char) : Char :=
  if 'A' ≤ c ∧ c ≤ 'Z' then Char.ofNat (c.toNat + 32) else c

def strLower (s : String) : String := ⟨s.data.map charLower⟩

/-- Split a character list on each occurrence of a separator character
(model of `strings.Split` with a one-character separator). -/
def splitChar (sep : Char) : List Char → List (List Char)
  | [] => [[]]
  | c :: cs =>
      let r := splitChar sep cs
      if c = sep then [] :: r
      else
        match r with
        | h :: t => (c :: h) :: t
        | [] => [[c]]

/-- The text following the first `://` of a URL, when present. -/
def hostAfterScheme : List Char → Option (List Char)
  | ':' :: '/' :: '/' :: rest => some rest
  | _ :: rest => hostAfterScheme rest
  | [] => none

/-- Modelled from the Go standard library `net/url.Parse`, restricted to
what `applyDefaults` relies on: extraction of the authority (`Host`)
component — the text between `://` and the next `/` — with parse failure
on control characters and blanks. -/
def urlParseHost (s : String) : Option String :=
  if s.data.any (fun c => c.toNat < 32 ∨ c = ' ') then none
  else
    match hostAfterScheme s.data with
    | some rest => some ⟨rest.takeWhile (fun c => c ≠ '/')⟩
    | none => some ""

/-- The `for` loop of `applyDefaults` deriving monitor addresses from the
URL list: hosts appended so far, plus whether the loop ran to completion
(false = a URL failed to parse and the method returned early). -/
def addrsLoop : List String → List String → List String × Bool
  | [], acc => (acc, true)
  | u :: us, acc =>
      match urlParseHost u with
      | none => (acc, false)
      | some h => addrsLoop us (acc ++ [h])

def defaultUrl (o : options) : options :=
  if o.Url = "" then { o with Url := "redis://127.0.0.1:6379" } else o

def defaultAddrs (o : options) : options × Bool :=
  if o.Addrs.isEmpty then
    let urls := (splitChar ';' o.Url.data).map (fun l => String.mk l)
    let p := addrsLoop urls o.Addrs
    ({ o with Addrs := p.1 }, p.2)
  else (o, true)

def defaultQueue (o : options) : options :=
  if o.Queue = "" then { o with Queue := "celery" } else o

def defaultMasterName (o : options) : options :=
  if o.MasterName = "" then { o with MasterName := "default-master" } else o

def defaultTimeout (o : options) : options :=
  if o.Timeout = 0 then { o with Timeout := 30000000000 } else o

def defaultGetRetryInterval (o : options) : options :=
  if o.GetRetryInterval = 0 then { o with GetRetryInterval := 50000000 } else o

/-- `options.applyDefaults` (celery-redis.go), including the early return
when a URL in the list fails to parse. -/
def applyDefaults (o : options) : options :=
  let o1 := defaultUrl o
  let p := defaultAddrs o1
  if p.2 = false then p.1
  else defaultGetRetryInterval (defaultTimeout (defaultMasterName (defaultQueue p.1)))

/-- `options.validate` (celery-redis.go): `some msg` is a validation
error, `none` passes. -/
def validate (o : options) : Option String :=
  if o.Timeout ≤ o.GetRetryInterval then
    some "celery backend timeout duration cannot be shorter than check interval"
  else if o.Queue = "" then some "celery target queue cannot be empty"
  else if o.Url = "" then some "celery endpoint URL cannot be empty"
  else if o.Addrs.isEmpty then some "celery endpoint Addrs cannot be empty"
  else none

/-- Configuration values arriving from the embedding runtime (the JSON
image of the goja options object). -/
inductive CfgVal where
  | str (s : String)
  | num (n : Int)
  | boolv (b : Bool)
  | list (l : List CfgVal)
  | null
deriving Repr

/-- Modelled from the Go standard library `time.ParseDuration`, restricted
to the simple `<digits><unit>` forms this module's configuration uses. -/
def parseGoDuration (s : String) : Except String Int :=
  let ds := s.data.takeWhile Char.isDigit
  let unit := s.data.drop ds.length
  let mult : Option Int :=
    if unit = "ns".data then some 1
    else if unit = "us".data then some 1000
    else if unit = "ms".data then some 1000000
    else if unit = "s".data then some 1000000000
    else if unit = "m".data then some 60000000000
    else if unit = "h".data then some 3600000000000
    else none
  if ds.isEmpty then .error ("time: invalid duration " ++ s)
  else match mult with
    | none => .error ("time: invalid duration " ++ s)
    | some mult =>
        .ok ((ds.foldl (fun a c => a * 10 + (c.toNat - 48)) 0 : Nat) * mult)

/-- `Duration.UnmarshalJSON` (celery-redis.go): a JSON number is taken as
nanoseconds, a string is parsed with `time.ParseDuration`, anything else
is `invalid duration`. -/
def unmarshalDuration (v : CfgVal) : Except String Int :=
  match v with
  | .num n => .ok n
  | .str s => parseGoDuration s
  | _ => .error "invalid duration"

def knownOptionKeys : List String :=
  ["url", "addrs", "mastername", "queue", "timeout", "getinterval"]

def decodeStrList : List CfgVal → Option (List String)
  | [] => some []
  | .str s :: rest => (decodeStrList rest).map (s :: ·)
  | _ => none

/-- One field of the JSON decoding of the options map: field tags are
matched case-insensitively, `null` leaves the field untouched, a type
mismatch is a decode error, and any key matching no field is rejected
(`DisallowUnknownFields`). -/
def setOption (o : options) (k : String) (v : CfgVal) : Except String options :=
  let kl := strLower k
  if kl = "url" then
    match v with
    | .str s => .ok { o with Url := s }
    | .null => .ok o
    | _ => .error "unable to decode options"
  else if kl = "addrs" then
    match v with
    | .list l =>
        match decodeStrList l with
        | some ss => .ok { o with Addrs := ss }
        | none => .error "unable to decode options"
    | .null => .ok o
    | _ => .error "unable to decode options"
  else if kl = "mastername" then
    match v with
    | .str s => .ok { o with MasterName := s }
    | .null => .ok o
    | _ => .error "unable to decode options"
  else if kl = "queue" then
    match v with
    | .str s => .ok { o with Queue := s }
    | .null => .ok o
    | _ => .error "unable to decode options"
  else if kl = "timeout" then
    match unmarshalDuration v with
    | .ok d => .ok { o with Timeout := d }
    | .error e => .error e
  else if kl = "getinterval" then
    match unmarshalDuration v with
    | .ok d => .ok { o with GetRetryInterval := d }
    | .error e => .error e
  else .error ("unable to decode options json: unknown field " ++ k)

/-- `newOptionsFrom` (celery-redis.go): decode the options map with
unknown fields disallowed. -/
def newOptionsFrom (m : List (String × CfgVal)) : Except String options :=
  m.foldlM (fun o kv => setOption o kv.1 kv.2) {}

instance {ε α : Type} [DecidableEq ε] [DecidableEq α] :
    DecidableEq (Except ε α) := fun a b =>
  match a, b with
  | .ok x, .ok y =>
      if h : x = y then .isTrue (by rw [h]) else .isFalse (by simp [h])
  | .error x, .error y =>
      if h : x = y then .isTrue (by rw [h]) else .isFalse (by simp [h])
  | .ok _, .error _ => .isFalse (by simp)
  | .error _, .ok _ => .isFalse (by simp)

/-- The configuration stage of `CeleryInstance.NewCeleryRedis`
(celery-redis.go): decode, apply defaults, validate; any error aborts
construction before a connection is attempted. -/
def newCeleryRedisOptions (m : List (String × CfgVal)) : Except String options :=
  match newOptionsFrom m with
  | .error e => .error ("invalid options; reason: " ++ e)
  | .ok o =>
      let o := applyDefaults o
      match validate o with
      | some e => .error ("invalid options; reason: " ++ e)
      | none => .ok o

theorem defaultUrl_durations (o : options) :
    (defaultUrl o).Timeout = o.Timeout ∧
    (defaultUrl o).GetRetryInterval = o.GetRetryInterval := by
  unfold defaultUrl; split <;> exact ⟨rfl, rfl⟩

theorem defaultAddrs_durations (o : options) :
    ((defaultAddrs o).1).Timeout = o.Timeout ∧
    ((defaultAddrs o).1).GetRetryInterval = o.GetRetryInterval := by
  unfold defaultAddrs; split <;> exact ⟨rfl, rfl⟩

theorem defaultQueue_durations (o : options) :
    (defaultQueue o).Timeout = o.Timeout ∧
    (defaultQueue o).GetRetryInterval = o.GetRetryInterval := by
  unfold defaultQueue; split <;> exact ⟨rfl, rfl⟩

theorem defaultMasterName_durations (o : options) :
    (defaultMasterName o).Timeout = o.Timeout ∧
    (defaultMasterName o).GetRetryInterval = o.GetRetryInterval := by
  unfold defaultMasterName; split <;> exact ⟨rfl, rfl⟩

theorem defaultTimeout_of_ne (o : options) (h : o.Timeout ≠ 0) :
    defaultTimeout o = o := by
  unfold defaultTimeout; rw [if_neg h]

theorem defaultTimeout_interval (o : options) :
    (defaultTimeout o).GetRetryInterval = o.GetRetryInterval := by
  unfold defaultTimeout; split <;> rfl

theorem defaultGetRetryInterval_of_ne (o : options) (h : o.GetRetryInterval ≠ 0) :
    defaultGetRetryInterval o = o := by
  unfold defaultGetRetryInterval; rw [if_neg h]

/-- `applyDefaults` does not alter explicitly set (nonzero) timeout and
poll-interval values. -/
theorem applyDefaults_durations (o : options) (ht : o.Timeout ≠ 0)
    (hi : o.GetRetryInterval ≠ 0) :
    (applyDefaults o).Timeout = o.Timeout ∧
    (applyDefaults o).GetRetryInterval = o.GetRetryInterval := by
  unfold applyDefaults
  dsimp only
  have hu := defaultUrl_durations o
  have ha := defaultAddrs_durations (defaultUrl o)
  split
  · exact ⟨ha.1.trans hu.1, ha.2.trans hu.2⟩
  · have hq := defaultQueue_durations (defaultAddrs (defaultUrl o)).1
    have hm := defaultMasterName_durations
      (defaultQueue (defaultAddrs (defaultUrl o)).1)
    have htT : (defaultMasterName
        (defaultQueue (defaultAddrs (defaultUrl o)).1)).Timeout = o.Timeout :=
      hm.1.trans (hq.1.trans (ha.1.trans hu.1))
    have htI : (defaultMasterName
        (defaultQueue (defaultAddrs (defaultUrl o)).1)).GetRetryInterval =
        o.GetRetryInterval :=
      hm.2.trans (hq.2.trans (ha.2.trans hu.2))
    rw [defaultTimeout_of_ne _ (by rw [htT]; exact ht),
      defaultGetRetryInterval_of_ne _ (by rw [htI]; exact hi)]
    exact ⟨htT, htI⟩

/-- A configuration accepted by `validate` satisfies all four checks. -/
theorem validate_ok_invariants (o : options) (h : validate o = none) :
    o.GetRetryInterval < o.Timeout ∧ o.Queue ≠ "" ∧ o.Url ≠ "" ∧
    o.Addrs ≠ [] := by
  unfold validate at h
  split at h
  · exact absurd h (by simp)
  · split at h
    · exact absurd h (by simp)
    · split at h
      · exact absurd h (by simp)
      · split at h
        · exact absurd h (by simp)
        · rename_i h1 h2 h3 h4
          exact ⟨by omega, h2, h3, by simpa using h4⟩

/-- C4 (amended): construction fails closed for the timeout/interval
relation — with both durations explicitly set (nonzero), timeout ≤ poll
interval is rejected before any connection is attempted — and for an
empty derived monitor-address list; empty queue, endpoint URL or
primary-group name are instead replaced by defaults, never rejected. -/
theorem newCeleryRedis_fails_closed (m : List (String × CfgVal)) (o : options)
    (hdec : newOptionsFrom m = .ok o)
    (ht : o.Timeout ≠ 0) (hi : o.GetRetryInterval ≠ 0) :
    (o.Timeout ≤ o.GetRetryInterval →
      ∃ e, newCeleryRedisOptions m = .error e) ∧
    ((applyDefaults o).Addrs = [] →
      ∃ e, newCeleryRedisOptions m = .error e) := by
  unfold newCeleryRedisOptions
  rw [hdec]
  obtain ⟨hT, hI⟩ := applyDefaults_durations o ht hi
  constructor
  · intro hle
    have hv : validate (applyDefaults o) =
        some "celery backend timeout duration cannot be shorter than check interval" := by
      unfold validate
      rw [if_pos (by rw [hT, hI]; exact hle)]
    simp only [hv]
    exact ⟨_, rfl⟩
  · intro haddr
    cases hv : validate (applyDefaults o) with
    | none =>
        have := (validate_ok_invariants _ hv).2.2.2
        exact absurd haddr this
    | some e =>
        simp only [hv]
        exact ⟨_, rfl⟩

/-- Witness for the amended C4: timeout 10ms with interval 50ms is
rejected. -/
theorem newCeleryRedis_fails_closed_witness :
    newOptionsFrom [("timeout", CfgVal.str "10ms"),
        ("getinterval", CfgVal.str "50ms")] =
      .ok { Url := "", Addrs := [], MasterName := "", Queue := "",
            Timeout := 10000000, GetRetryInterval := 50000000 } ∧
    ∃ e, newCeleryRedisOptions [("timeout", CfgVal.str "10ms"),
        ("getinterval", CfgVal.str "50ms")] = .error e :=
  ⟨by decide,
   (newCeleryRedis_fails_closed
     [("timeout", CfgVal.str "10ms"), ("getinterval", CfgVal.str "50ms")]
     { Url := "", Addrs := [], MasterName := "", Queue := "",
       Timeout := 10000000, GetRetryInterval := 50000000 }
     (by decide) (by decide) (by decide)).1 (by decide)⟩

/-- Counterexample to C4 as stated: a configuration with empty queue,
empty endpoint URL and empty primary-group name (with monitor addresses
set, i.e. failover mode) is accepted — defaults are substituted instead
of rejecting it. -/
theorem newCeleryRedis_accepts_empty_names :
    newCeleryRedisOptions
        [("url", CfgVal.str ""), ("queue", CfgVal.str ""),
         ("mastername", CfgVal.str ""),
         ("addrs", CfgVal.list [CfgVal.str "127.0.0.1:26379"])] =
      .ok { Url := "redis://127.0.0.1:6379", Addrs := ["127.0.0.1:26379"],
            MasterName := "default-master", Queue := "celery",
            Timeout := 30000000000, GetRetryInterval := 50000000 } := by decide

theorem setOption_unknown (o : options) (k : String) (v : CfgVal)
    (hunk : strLower k ∉ knownOptionKeys) :
    setOption o k v =
      .error ("unable to decode options json: unknown field " ++ k) := by
  unfold setOption
  simp only [knownOptionKeys, List.mem_cons, List.not_mem_nil, or_false,
    not_or] at hunk
  obtain ⟨h1, h2, h3, h4, h5, h6⟩ := hunk
  rw [if_neg h1, if_neg h2, if_neg h3, if_neg h4, if_neg h5, if_neg h6]

theorem foldlM_setOption_unknown (m : List (String × CfgVal)) :
    ∀ o : options, (∃ kv ∈ m, strLower kv.1 ∉ knownOptionKeys) →
    ∃ e, m.foldlM (fun o kv => setOption o kv.1 kv.2) o = .error e := by
  induction m with
  | nil =>
      intro o h
      obtain ⟨kv, hkv, _⟩ := h
      simp at hkv
  | cons kv rest ih =>
      intro o h
      by_cases hk : strLower kv.1 ∈ knownOptionKeys
      · have hrest : ∃ kv' ∈ rest, strLower kv'.1 ∉ knownOptionKeys := by
          obtain ⟨kv', hkv', hunk'⟩ := h
          rcases List.mem_cons.mp hkv' with rfl | hmem
          · exact absurd hk hunk'
          · exact ⟨kv', hmem, hunk'⟩
        cases hso : setOption o kv.1 kv.2 with
        | error e =>
            exact ⟨e, by simp [List.foldlM, hso, Bind.bind, Except.bind]⟩
        | ok o' =>
            obtain ⟨e, he⟩ := ih o' hrest
            exact ⟨e, by simp [List.foldlM, hso, Bind.bind, Except.bind, he]⟩
      · refine ⟨"unable to decode options json: unknown field " ++ kv.1, ?_⟩
        simp [List.foldlM, setOption_unknown o kv.1 kv.2 hk, Bind.bind,
          Except.bind]

/-- C9: a configuration object containing any key outside the known
option set (url, addrs, mastername, queue, timeout, getinterval) fails
construction with a configuration error rather than being silently
ignored. -/
theorem newCeleryRedis_rejects_unknown_key (m : List (String × CfgVal))
    (k : String) (v : CfgVal) (hmem : (k, v) ∈ m)
    (hunk : strLower k ∉ knownOptionKeys) :
    ∃ e, newCeleryRedisOptions m = .error e := by
  obtain ⟨e, he⟩ := foldlM_setOption_unknown m {} ⟨(k, v), hmem, hunk⟩
  have hn : newOptionsFrom m = .error e := he
  exact ⟨"invalid options; reason: " ++ e,
    by simp [newCeleryRedisOptions, hn]⟩

/-- Witness for C9 at a concrete unknown key. -/
theorem newCeleryRedis_rejects_unknown_key_witness :
    ("unknownkey", CfgVal.str "x") ∈ [("unknownkey", CfgVal.str "x")] ∧
    strLower "unknownkey" ∉ knownOptionKeys ∧
    ∃ e, newCeleryRedisOptions [("unknownkey", CfgVal.str "x")] = .error e :=
  ⟨by simp, by decide,
   newCeleryRedis_rejects_unknown_key [("unknownkey", CfgVal.str "x")]
     "unknownkey" (CfgVal.str "x") (by simp) (by decide)⟩

end XK6Celery
